import Mathlib

/-!
# Schedule Coordination and Conflict Detection Engine — verification

Shallow embedding of the coordination agent
(src/agents/coordinationAgent.js) of the construction-project mailbox
assistant, together with proofs about its three detectors
(trade-overlap, schedule-conflict, missing-dependency) and its
coordination report.

Calendar dates are embedded as integer day numbers: the source stores
calendar dates (no time-of-day) and converts them with new Date(...)
to midnight-aligned millisecond timestamps, so a date is exactly
day * 86400000 milliseconds and the embedding keeps the day number.
Wherever the source divides a millisecond difference by one day
(Math.ceil((b - a) / (1000*60*60*24))), the embedding reconstructs the
millisecond values (multiplying by msPerDay) and applies the same
ceiling division.
-/

namespace Coord

/-- Milliseconds per day, the divisor 1000 * 60 * 60 * 24 of the source. -/
def msPerDay : Int := 1000 * 60 * 60 * 24

/-- Ceiling division on integers, Math.ceil (x / d) for a positive d. -/
def ceilDiv (x d : Int) : Int := -(Int.fdiv (-x) d)

/-- The expression Math.ceil((b - a) / (1000*60*60*24)) where b and a
are calendar dates embedded as day numbers (hence the multiplication by
msPerDay to recover the millisecond timestamps the source subtracts). -/
def daysCeilDiff (b a : Int) : Int := ceilDiv ((b - a) * msPerDay) msPerDay

/-- One task row as selected by the query of the agent: identity,
display fields, planned/actual calendar-date ranges, status, declared
dependencies and the (left-joined, hence optional) trade. -/
structure Task where
  id : Nat
  name : String
  description : String
  planned_start_date : Option Int
  planned_end_date : Option Int
  actual_start_date : Option Int
  actual_end_date : Option Int
  status : String
  depends_on : List Nat
  trade_id : Option Nat
  trade_name : Option String
deriving DecidableEq, Repr

/-- One overlap finding as pushed by detectTradeOverlaps:
the two tasks and the intersection window. -/
structure Overlap where
  task1 : Task
  task2 : Task
  startOverlap : Int
  endOverlap : Int
deriving DecidableEq, Repr

/-- The day count Math.ceil((endOverlap - startOverlap) / (1000*60*60*24))
that the source computes for each overlap finding. -/
def Overlap.daysOverlap (o : Overlap) : Int :=
  ceilDiv ((o.endOverlap - o.startOverlap) * msPerDay) msPerDay

/-- One schedule conflict finding as pushed by detectScheduleConflicts. -/
structure Conflict where
  task : Task
  dependency : Task
  daysConflict : Int
deriving DecidableEq, Repr

/-- One candidate predecessor recorded by detectMissingDependencies. -/
structure PotentialDep where
  task : Task
  daysBetween : Int
deriving DecidableEq, Repr

/-- One missing-dependency finding (type: missing_dependency). -/
structure MissingDepIssue where
  task : Task
  potentialDependencies : List PotentialDep
deriving DecidableEq, Repr

/-! ## Trade Overlap Detector (detectTradeOverlaps) -/

/-- The grouping filter of detectTradeOverlaps: only tasks with a
trade and a fully specified planned range enter tasksByTrade. -/
def overlapEligible (t : Task) : Bool :=
  t.trade_id.isSome && t.planned_start_date.isSome && t.planned_end_date.isSome

/-- The keys of the tasksByTrade map, in insertion order (first
occurrence of each trade id among eligible tasks). -/
def tradeKeys (tasks : List Task) : List Nat :=
  tasks.foldl (fun ks t =>
    match t.trade_id, t.planned_start_date, t.planned_end_date with
    | some tr, some _, some _ => if tr ∈ ks then ks else ks ++ [tr]
    | _, _, _ => ks) []

/-- The bucket of tasksByTrade for a given trade id: eligible tasks of
that trade, in input order. -/
def tradeGroup (tasks : List Task) (tr : Nat) : List Task :=
  tasks.filter (fun t =>
    t.trade_id == some tr && t.planned_start_date.isSome && t.planned_end_date.isSome)

/-- The body of the innermost loop of detectTradeOverlaps: compare the
planned ranges; when startDate1 <= endDate2 && endDate1 >= startDate2,
push the finding whose window runs from
(startDate1 > startDate2 ? startDate1 : startDate2) to
(endDate1 < endDate2 ? endDate1 : endDate2). In the source both tasks
come from tasksByTrade buckets, so all four dates are present there. -/
def overlapOf (t1 t2 : Task) : Option Overlap :=
  match t1.planned_start_date, t1.planned_end_date,
        t2.planned_start_date, t2.planned_end_date with
  | some s1, some e1, some s2, some e2 =>
    if s1 ≤ e2 ∧ e1 ≥ s2 then
      some { task1 := t1, task2 := t2,
             startOverlap := if s1 > s2 then s1 else s2,
             endOverlap := if e1 < e2 then e1 else e2 }
    else none
  | _, _, _, _ => none

/-- The two inner loops: every task of the first bucket against every
task of the second, in order. -/
def compareGroups (g1 g2 : List Task) : List Overlap :=
  g1.flatMap (fun x => g2.filterMap (fun y => overlapOf x y))

/-- The double loop with i < j over the trade keys: each unordered pair
of distinct trades is visited once, in key order. -/
def keyPairs : List Nat → List (Nat × Nat)
  | [] => []
  | k :: ks => ks.map (fun j => (k, j)) ++ keyPairs ks

/-- The detectTradeOverlaps function, paired with the state of the task
array of the caller after the call: the function only reads tasks
(grouping and nested loops), so the array is returned unchanged. -/
def detectTradeOverlapsFull (tasks : List Task) : List Overlap × List Task :=
  ((keyPairs (tradeKeys tasks)).flatMap
    (fun p => compareGroups (tradeGroup tasks p.1) (tradeGroup tasks p.2)),
   tasks)

/-- The overlap findings of detectTradeOverlaps. -/
def detectTradeOverlaps (tasks : List Task) : List Overlap :=
  (detectTradeOverlapsFull tasks).1

/-! ## Schedule Conflict Detector (detectScheduleConflicts) -/

/-- Lookup in taskMap: the source builds taskMap by Map.set over the
task list, so on duplicate ids the last row wins. -/
def findTask (tasks : List Task) (i : Nat) : Option Task :=
  tasks.reverse.find? (fun t => t.id == i)

/-- The per-task body of detectScheduleConflicts: for a task with a
non-empty dependency list and a planned start, each declared dependency
id that resolves (via taskMap) to a task with a planned end is flagged
when taskStartDate < dependencyEndDate; unresolved ids and dependencies
without an end date are skipped. -/
def conflictsOf (tasks : List Task) (t : Task) : List Conflict :=
  match t.planned_start_date with
  | none => []
  | some s =>
    if t.depends_on = [] then []
    else
      t.depends_on.filterMap (fun d =>
        match findTask tasks d with
        | none => none
        | some dep =>
          match dep.planned_end_date with
          | none => none
          | some e =>
            if s < e then some ⟨t, dep, daysCeilDiff e s⟩ else none)

/-- The detectScheduleConflicts function, paired with the (unmodified,
read-only) task array. -/
def detectScheduleConflictsFull (tasks : List Task) : List Conflict × List Task :=
  (tasks.flatMap (conflictsOf tasks), tasks)

/-- The conflict findings of detectScheduleConflicts. -/
def detectScheduleConflicts (tasks : List Task) : List Conflict :=
  (detectScheduleConflictsFull tasks).1

/-! ## Missing Dependency Inferrer (detectMissingDependencies) -/

/-- The sort comparator of detectMissingDependencies as a boolean order
(comparator(a,b) <= 0): tasks without a planned start sort after every
task with one, tasks with planned starts sort by start date. For two
tasks both without a planned start the JS comparator is inconsistent —
it answers "after" both ways — so their relative order is
implementation-defined; the embedding picks true, which keeps the order
total and affects none of the findings of the detector, since such
tasks are skipped as subjects and are never earlier than a subject. -/
def sortLe (a b : Task) : Bool :=
  match a.planned_start_date, b.planned_start_date with
  | none, none => true
  | none, some _ => false
  | some _, none => true
  | some x, some y => x ≤ y

/-- The comparator as a relation, for the sorting lemmas. -/
def sortRel : Task → Task → Prop := fun a b => sortLe a b = true

instance : DecidableRel sortRel := fun a b => by unfold sortRel; infer_instance

instance : IsTrans Task sortRel :=
  ⟨by
    intro a b c hab hbc
    unfold sortRel sortLe at *
    rcases ha : a.planned_start_date with _ | x <;>
      rcases hb : b.planned_start_date with _ | y <;>
      rcases hc : c.planned_start_date with _ | z <;> simp_all
    omega⟩

instance : IsTotal Task sortRel :=
  ⟨by
    intro a b
    unfold sortRel sortLe
    rcases ha : a.planned_start_date with _ | x <;>
      rcases hb : b.planned_start_date with _ | y <;> simp_all
    omega⟩

/-- The statement sortedTasks = [...tasks].sort(...): the sort operates
on a spread copy, so the array of the caller is untouched. The JS
engine sorts stably (TimSort); any stable sort on the same total
preorder yields the same list, and the embedding uses a stable
insertion sort. -/
def sortedTasks (tasks : List Task) : List Task :=
  tasks.insertionSort sortRel

/-- The inner loop with j < i of detectMissingDependencies: scan the
tasks before cur in sorted order; skip those without a planned end;
record a candidate when 0 <= daysBetween <= 5 and the candidate is not
already among the declared dependencies of cur. -/
def candidatesFor (prevs : List Task) (cur : Task) (curStart : Int) : List PotentialDep :=
  prevs.filterMap (fun p =>
    match p.planned_end_date with
    | none => none
    | some pe =>
      let d := daysCeilDiff curStart pe
      if 0 ≤ d ∧ d ≤ 5 ∧ p.id ∉ cur.depends_on then some ⟨p, d⟩ else none)

/-- The outer loop of detectMissingDependencies over the sorted list,
carrying the already-visited prefix: subjects without a planned start
are skipped (but stay visible as predecessors); a finding is pushed
when candidates were found and the subject has no declared
dependencies. -/
def missingDepScan : List Task → List Task → List MissingDepIssue
  | _, [] => []
  | prevs, cur :: rest =>
    match cur.planned_start_date with
    | none => missingDepScan (prevs ++ [cur]) rest
    | some s =>
      let cands := candidatesFor prevs cur s
      (if cands ≠ [] ∧ cur.depends_on = [] then [⟨cur, cands⟩] else []) ++
        missingDepScan (prevs ++ [cur]) rest

/-- The detectMissingDependencies function, paired with the task array
of the caller after the call: the function sorts a spread copy
([...tasks].sort), so the input array is returned unchanged. -/
def detectMissingDependenciesFull (tasks : List Task) : List MissingDepIssue × List Task :=
  (missingDepScan [] (sortedTasks tasks), tasks)

/-- The missing-dependency findings of detectMissingDependencies. -/
def detectMissingDependencies (tasks : List Task) : List MissingDepIssue :=
  (detectMissingDependenciesFull tasks).1

/-- Modelled from the spec: the spec describes the lookback window as a
configuration value lookbackDays (default 5) consumed from the
environment/collaborator, a configuration surface the source code does
not have (its comparison is the literal daysBetween <= 5, and no
lookback setting exists anywhere in the repository configuration).
This is the candidate scan exactly as the source computes it but with
the configurable lookbackDays of the spec in place of the literal
bound. -/
def candidatesForCfg (lookbackDays : Int) (prevs : List Task) (cur : Task)
    (curStart : Int) : List PotentialDep :=
  prevs.filterMap (fun p =>
    match p.planned_end_date with
    | none => none
    | some pe =>
      let d := daysCeilDiff curStart pe
      if 0 ≤ d ∧ d ≤ lookbackDays ∧ p.id ∉ cur.depends_on then some ⟨p, d⟩ else none)

/-- Modelled from the spec: outer loop of the configurable inferrer,
identical to missingDepScan except for the window bound. -/
def missingDepScanCfg (lookbackDays : Int) : List Task → List Task → List MissingDepIssue
  | _, [] => []
  | prevs, cur :: rest =>
    match cur.planned_start_date with
    | none => missingDepScanCfg lookbackDays (prevs ++ [cur]) rest
    | some s =>
      let cands := candidatesForCfg lookbackDays prevs cur s
      (if cands ≠ [] ∧ cur.depends_on = [] then [⟨cur, cands⟩] else []) ++
        missingDepScanCfg lookbackDays (prevs ++ [cur]) rest

/-- Modelled from the spec: the Missing Dependency Inferrer with the
configurable lookbackDays window of the spec. -/
def detectMissingDependenciesCfg (lookbackDays : Int) (tasks : List Task) : List MissingDepIssue :=
  missingDepScanCfg lookbackDays [] (sortedTasks tasks)

/-! ## Dependency Graph Builder (analyzeProjectTasks, lines 70 to 89) -/

/-- The keys of dependencyGraph: one per distinct task id, in first
insertion order. -/
def graphKeys (tasks : List Task) : List Nat :=
  tasks.foldl (fun ks t => if t.id ∈ ks then ks else ks ++ [t.id]) []

/-- The adjacency list accumulated for key k: the fill loop walks the
tasks in order and, for each occurrence of k in the depends_on list of
a task, pushes the id of that task (the dependencyGraph.has guard holds
since k is a key). -/
def dependentsOf (tasks : List Task) (k : Nat) : List Nat :=
  tasks.flatMap (fun t => (t.depends_on.filter (fun d => d == k)).map (fun _ => t.id))

/-- The dependency graph of analyzeProjectTasks: each task id maps to
the ids of the tasks that declare it as a dependency; dependency ids
with no task row fail the dependencyGraph.has guard and are ignored. -/
def buildDependencyGraph (tasks : List Task) : List (Nat × List Nat) :=
  (graphKeys tasks).map (fun k => (k, dependentsOf tasks k))

/-! ## Coordination Report Assembler (generateCoordinationReport) -/

/-- Stands in for toLocaleDateString() on an optional date: the locale
rendering of the day value, or the given absent-marker. -/
def fmtDate (d : Option Int) (absent : String) : String :=
  match d with
  | some v => toString v
  | none => absent

/-- One per-task display row of the report. -/
structure TaskDisplay where
  id : Nat
  name : String
  description : String
  plannedStart : String
  plannedEnd : String
  actualStart : String
  actualEnd : String
  status : String
deriving DecidableEq, Repr

/-- The display row built for each task row. -/
def toDisplay (t : Task) : TaskDisplay :=
  { id := t.id, name := t.name, description := t.description,
    plannedStart := fmtDate t.planned_start_date "Non défini",
    plannedEnd := fmtDate t.planned_end_date "Non défini",
    actualStart := fmtDate t.actual_start_date "-",
    actualEnd := fmtDate t.actual_end_date "-",
    status := t.status }

/-- The grouping key of the report, trade_name with the sentinel label
for tasks without a trade. -/
def tradeNameOf (t : Task) : String :=
  t.trade_name.getD "Sans corps de métier"

/-- The keys of the tasksByTrade object, in first-occurrence order. -/
def tradeNames (tasks : List Task) : List String :=
  tasks.foldl (fun ks t => if tradeNameOf t ∈ ks then ks else ks ++ [tradeNameOf t]) []

/-- The grouping of display rows by trade name in the report. -/
def groupTasksByTrade (tasks : List Task) : List (String × List TaskDisplay) :=
  (tradeNames tasks).map (fun n =>
    (n, (tasks.filter (fun t => tradeNameOf t == n)).map toDisplay))

/-- The report structure assembled at the end of
generateCoordinationReport. -/
structure Report where
  projectName : String
  generatedDate : String
  tasksByTrade : List (String × List TaskDisplay)
  totalTasks : Nat
  completedTasks : Nat
  inProgressTasks : Nat
  plannedTasks : Nat
  delayedTasks : Nat
deriving DecidableEq, Repr

/-- The pure assembly step of generateCoordinationReport (grouping plus
the five filter(...).length counts); today stands for the value of
new Date().toLocaleDateString(). -/
def makeReport (projectName today : String) (tasks : List Task) : Report :=
  { projectName := projectName,
    generatedDate := today,
    tasksByTrade := groupTasksByTrade tasks,
    totalTasks := tasks.length,
    completedTasks := tasks.countP (fun t => t.status == "completed"),
    inProgressTasks := tasks.countP (fun t => t.status == "in_progress"),
    plannedTasks := tasks.countP (fun t => t.status == "planned"),
    delayedTasks := tasks.countP (fun t => t.status == "delayed") }

/-- The generateCoordinationReport function, as a function of what the
database interaction yields: Except.error models a query that throws
(the surrounding try/catch returns null); Except.ok (none, _) models a
project id with no project row (projectResult.rows.length === 0,
returns null); otherwise the report is assembled from the project name
and the task rows. -/
def generateCoordinationReport (dbRes : Except String (Option String × List Task))
    (today : String) : Option Report :=
  match dbRes with
  | .error _ => none
  | .ok (none, _) => none
  | .ok (some projectName, tasks) => some (makeReport projectName today tasks)

/-- The closed status set of the data model, as a predicate: exactly
the four statuses the report counts individually. -/
def closedStatus (s : String) : Bool :=
  s == "completed" || s == "in_progress" || s == "planned" || s == "delayed"

/-! ## Concrete example records

Small task records used to instantiate the testable properties of the
spec (day numbers stand for January dates: day n is Jan n). -/

/-- Default record for building concrete examples. -/
def baseTask : Task :=
  { id := 0, name := "t", description := "", planned_start_date := none,
    planned_end_date := none, actual_start_date := none, actual_end_date := none,
    status := "planned", depends_on := [], trade_id := none, trade_name := none }

/-- Trade-1 task planned Jan 1 to Jan 4. -/
def ovA : Task :=
  { baseTask with
    id := 1, trade_id := some 1, trade_name := some "Terrassement",
    planned_start_date := some 1, planned_end_date := some 4 }

/-- Trade-2 task planned Jan 5 to Jan 10. -/
def ovB : Task :=
  { baseTask with
    id := 2, trade_id := some 2, trade_name := some "Plomberie",
    planned_start_date := some 5, planned_end_date := some 10 }

/-- Trade-1 task planned Jan 1 to Jan 5. -/
def ovC : Task :=
  { baseTask with
    id := 3, trade_id := some 1, trade_name := some "Terrassement",
    planned_start_date := some 1, planned_end_date := some 5 }

/-- Trade-1 task planned Jan 1 to Jan 10. -/
def ovE : Task :=
  { baseTask with
    id := 4, trade_id := some 1, trade_name := some "Terrassement",
    planned_start_date := some 1, planned_end_date := some 10 }

/-- Trade-2 task planned Jan 8 to Jan 20. -/
def ovF : Task :=
  { baseTask with
    id := 5, trade_id := some 2, trade_name := some "Plomberie",
    planned_start_date := some 8, planned_end_date := some 20 }

/-- The boundary overlap finding produced for ovC and ovB. -/
def boundaryOverlap : Overlap :=
  { task1 := ovC, task2 := ovB, startOverlap := 5, endOverlap := 5 }

/-- Dependency task (id 1) planned Jan 2 to Jan 15. -/
def cfDep : Task :=
  { baseTask with
    id := 1,
    planned_start_date := some 2, planned_end_date := some 15 }

/-- Task starting Jan 10 that depends on task 1. -/
def cfLate : Task :=
  { baseTask with
    id := 2, planned_start_date := some 10,
    planned_end_date := some 30, depends_on := [1] }

/-- Task starting Jan 20 that depends on task 1. -/
def cfOk : Task :=
  { baseTask with
    id := 3, planned_start_date := some 20,
    planned_end_date := some 30, depends_on := [1] }

/-- Task starting Jan 10 whose dependency list also holds the dangling
id 99. -/
def cfDangling : Task :=
  { baseTask with
    id := 4, planned_start_date := some 10,
    planned_end_date := some 30, depends_on := [99, 1] }

/-- Candidate predecessor (id 1) ending Jan 6. -/
def mdPred : Task :=
  { baseTask with
    id := 1, planned_start_date := some 1, planned_end_date := some 6 }

/-- Distant predecessor (id 2) ending Jan 3, outside the 5-day window
of a Jan 10 start. -/
def mdFar : Task :=
  { baseTask with
    id := 2, planned_start_date := some 1, planned_end_date := some 3 }

/-- Subject task (id 3) starting Jan 10 with no declared dependencies. -/
def mdSubj : Task :=
  { baseTask with
    id := 3, planned_start_date := some 10, planned_end_date := some 12 }

/-- Completed-status task for the report example. -/
def stDone : Task := { baseTask with
    id := 10, status := "completed" }

/-- Task whose status lies outside the closed status set. -/
def stOdd : Task := { baseTask with
    id := 11, status := "weird" }

/-! ## Basic lemmas -/

/-- The day divisor is nonzero. -/
theorem msPerDay_ne_zero : msPerDay ≠ 0 := by norm_num [msPerDay]

/-- Ceiling division of an exact multiple of the divisor recovers the
factor: on midnight-aligned dates the ceiling in the source is exact. -/
theorem daysCeilDiff_eq (b a : Int) : daysCeilDiff b a = b - a := by
  unfold daysCeilDiff ceilDiv
  rw [show -((b - a) * msPerDay) = -(b - a) * msPerDay by ring,
    Int.mul_fdiv_cancel _ msPerDay_ne_zero]
  ring

/-- The day count of an overlap finding is the difference of its window
bounds. -/
theorem daysOverlap_eq (o : Overlap) : o.daysOverlap = o.endOverlap - o.startOverlap :=
  daysCeilDiff_eq o.endOverlap o.startOverlap

/-- The sorted list is ordered by the comparator. -/
theorem sortedTasks_pairwise (tasks : List Task) :
    (sortedTasks tasks).Pairwise sortRel :=
  List.sorted_insertionSort sortRel tasks

/-- A task without a planned start never sorts before a task with one. -/
theorem sortLe_none {a b : Task} (ha : a.planned_start_date = none)
    (h : sortLe a b = true) : b.planned_start_date = none := by
  unfold sortLe at h
  rw [ha] at h
  rcases hb : b.planned_start_date with _ | y
  · rfl
  · rw [hb] at h; simp at h

/-- The configurable candidate scan at the default value coincides with
the hard-coded one. -/
theorem candidatesForCfg_five (prevs : List Task) (cur : Task) (s : Int) :
    candidatesForCfg 5 prevs cur s = candidatesFor prevs cur s := rfl

/-- The configurable outer scan at the default value coincides with the
hard-coded one. -/
theorem missingDepScanCfg_five : ∀ (l acc : List Task),
    missingDepScanCfg 5 acc l = missingDepScan acc l := by
  intro l
  induction l with
  | nil => intro acc; rfl
  | cons cur rest ih =>
    intro acc
    rcases h : cur.planned_start_date with _ | s <;>
      simp only [missingDepScanCfg, missingDepScan, h, ih, candidatesForCfg_five]

/-- **C6** (amended). The lookback window of the Missing Dependency
Inferrer is hard-coded: the source admits a predecessor exactly when
0 <= daysBetween <= 5, and its behavior coincides with the configurable
inferrer described by the spec only at the default value
lookbackDays = 5; no environment-supplied lookback parameter exists
(the overlap and conflict detectors take no lookback input at all, so
they trivially do not depend on one). -/
theorem lookback_window_hardcoded (tasks : List Task) :
    detectMissingDependencies tasks = detectMissingDependenciesCfg 5 tasks := by
  unfold detectMissingDependencies detectMissingDependenciesFull detectMissingDependenciesCfg
  rw [missingDepScanCfg_five]

/-- **C6** counterexample. The claim that for every configured value N
a predecessor is admitted exactly when 0 <= daysBetween <= N fails: the
code has no configuration input, so under a configured value of 3 it
still admits a candidate at daysBetween = 4 (predecessor ending Jan 6,
subject starting Jan 10), disagreeing with the configurable inferrer
the spec describes. -/
theorem lookback_not_tunable_cex :
    detectMissingDependencies [mdPred, mdSubj] ≠
      detectMissingDependenciesCfg 3 [mdPred, mdSubj] ∧
    (detectMissingDependencies [mdPred, mdSubj]).map
      (fun i => i.potentialDependencies.map PotentialDep.daysBetween) = [[4]] := by
  exact ⟨by decide, by decide⟩

/-- **C9**. When the project cannot be resolved (no project row) or the
database interaction throws, generateCoordinationReport returns the
explicit absence value (null) instead of raising; for a resolvable
project with zero tasks it returns a report with empty groupings and
zero counts. -/
theorem report_absence_not_exception :
    (∀ (e today : String), generateCoordinationReport (.error e) today = none) ∧
    (∀ (tasks : List Task) (today : String),
      generateCoordinationReport (.ok (none, tasks)) today = none) ∧
    (∀ (pname today : String),
      generateCoordinationReport (.ok (some pname, [])) today =
        some { projectName := pname, generatedDate := today, tasksByTrade := [],
               totalTasks := 0, completedTasks := 0, inProgressTasks := 0,
               plannedTasks := 0, delayedTasks := 0 }) :=
  ⟨fun _ _ => rfl, fun _ _ => rfl, fun _ _ => rfl⟩

/-- **C10**. None of the three detectors mutates its input: each
embedded detector returns the task collection it was given unchanged
(the inferrer sorts a spread copy of the list — the sorted working list
is a permutation of the input, while the input itself is untouched). -/
theorem detectors_preserve_input (tasks : List Task) :
    (detectTradeOverlapsFull tasks).2 = tasks ∧
    (detectMissingDependenciesFull tasks).2 = tasks ∧
    (detectScheduleConflictsFull tasks).2 = tasks ∧
    (sortedTasks tasks).Perm tasks :=
  ⟨rfl, rfl, rfl, List.perm_insertionSort sortRel tasks⟩

/-! ## Schedule conflict lemmas -/

/-- Membership in the conflict list is membership in some per-task
conflict batch. -/
theorem mem_detectScheduleConflicts {tasks : List Task} {c : Conflict} :
    c ∈ detectScheduleConflicts tasks ↔ ∃ t ∈ tasks, c ∈ conflictsOf tasks t := by
  unfold detectScheduleConflicts detectScheduleConflictsFull
  exact List.mem_flatMap

/-- Every conflict in a per-task batch carries its generating data. -/
theorem conflictsOf_elim {tasks : List Task} {t : Task} {c : Conflict}
    (h : c ∈ conflictsOf tasks t) :
    c.task = t ∧ ∃ s e i, t.planned_start_date = some s ∧ i ∈ t.depends_on ∧
      findTask tasks i = some c.dependency ∧
      c.dependency.planned_end_date = some e ∧ s < e ∧ c.daysConflict = e - s := by
  unfold conflictsOf at h
  rcases hs : t.planned_start_date with _ | s <;> simp only [hs] at h
  · exact absurd h (List.not_mem_nil c)
  by_cases hd : t.depends_on = []
  · rw [if_pos hd] at h; exact absurd h (List.not_mem_nil c)
  rw [if_neg hd] at h
  obtain ⟨i, hi, hf⟩ := List.mem_filterMap.mp h
  rcases hft : findTask tasks i with _ | dep <;> simp only [hft] at hf
  · exact Option.noConfusion hf
  rcases he : dep.planned_end_date with _ | e <;> simp only [he] at hf
  · exact Option.noConfusion hf
  by_cases hlt : s < e
  · rw [if_pos hlt] at hf
    obtain rfl := Option.some.inj hf
    exact ⟨rfl, s, e, i, rfl, hi, hft, he, hlt, daysCeilDiff_eq e s⟩
  · rw [if_neg hlt] at hf
    exact absurd hf (by simp)

/-- A resolvable, violated dependency always produces its conflict. -/
theorem conflictsOf_intro {tasks : List Task} {t dep : Task} {s e : Int} {i : Nat}
    (hs : t.planned_start_date = some s) (hi : i ∈ t.depends_on)
    (hf : findTask tasks i = some dep) (he : dep.planned_end_date = some e)
    (hlt : s < e) :
    (⟨t, dep, daysCeilDiff e s⟩ : Conflict) ∈ conflictsOf tasks t := by
  unfold conflictsOf
  simp only [hs]
  rw [if_neg (fun h0 => by rw [h0] at hi; exact absurd hi (List.not_mem_nil i))]
  refine List.mem_filterMap.mpr ⟨i, hi, ?_⟩
  simp only [hf, he]
  rw [if_pos hlt]

/-- **C3**. For every task with a non-empty dependency set and a
defined planned start, and for every declared dependency identity that
resolves to a task with a defined planned end, the Schedule Conflict
Detector flags a conflict if and only if the start of the task precedes
the end of the dependency; every flagged conflict carries the magnitude
Math.ceil((dependency end - task start) / 1 day), which is strictly
positive; the Jan 10 / Jan 15 example yields exactly one conflict of 5
days, and the Jan 20 variant yields none. -/
theorem schedule_conflict_iff :
    (∀ (tasks : List Task) (t dep : Task) (s e : Int) (i : Nat),
      t ∈ tasks → t.planned_start_date = some s → i ∈ t.depends_on →
      findTask tasks i = some dep → dep.planned_end_date = some e →
      ((∃ c ∈ detectScheduleConflicts tasks, c.task = t ∧ c.dependency = dep) ↔ s < e)) ∧
    (∀ (tasks : List Task) (c : Conflict), c ∈ detectScheduleConflicts tasks →
      ∃ s e, c.task.planned_start_date = some s ∧
        c.dependency.planned_end_date = some e ∧ s < e ∧
        c.daysConflict = daysCeilDiff e s ∧ c.daysConflict = e - s ∧ 0 < c.daysConflict) ∧
    (detectScheduleConflicts [cfDep, cfLate]).map Conflict.daysConflict = [5] ∧
    detectScheduleConflicts [cfDep, cfOk] = [] := by
  refine ⟨?_, ?_, by decide, by decide⟩
  · intro tasks t dep s e i ht hs hi hf he
    constructor
    · rintro ⟨c, hc, hct, hcd⟩
      obtain ⟨t2, ht2, hcf⟩ := mem_detectScheduleConflicts.mp hc
      obtain ⟨hctask, s2, e2, i2, hs2, hi2, hf2, he2, hlt2, hdays⟩ := conflictsOf_elim hcf
      have hteq : t = t2 := by rw [← hct, hctask]
      rw [← hteq] at hs2
      rw [hs] at hs2
      obtain rfl := Option.some.inj hs2
      rw [hcd] at he2
      rw [he] at he2
      obtain rfl := Option.some.inj he2
      exact hlt2
    · intro hlt
      exact ⟨⟨t, dep, daysCeilDiff e s⟩,
        mem_detectScheduleConflicts.mpr ⟨t, ht, conflictsOf_intro hs hi hf he hlt⟩,
        rfl, rfl⟩
  · intro tasks c hc
    obtain ⟨t2, ht2, hcf⟩ := mem_detectScheduleConflicts.mp hc
    obtain ⟨hctask, s, e, i, hs, hi, hf, he, hlt, hdays⟩ := conflictsOf_elim hcf
    refine ⟨s, e, ?_, he, hlt, ?_, hdays, by omega⟩
    · rw [hctask]; exact hs
    · rw [hdays, daysCeilDiff_eq]

/-- **C3** witness: the task starting Jan 10 with the dependency ending
Jan 15 is indeed flagged. -/
theorem schedule_conflict_iff_witness :
    ∃ c ∈ detectScheduleConflicts [cfDep, cfLate], c.task = cfLate ∧ c.dependency = cfDep :=
  (schedule_conflict_iff.1 [cfDep, cfLate] cfLate cfDep 10 15 1 (by decide)
    rfl (by decide) (by decide) rfl).mpr (by norm_num)

/-! ## Dependency graph lemmas -/

/-- Characterization of the fold that collects graph keys. -/
theorem mem_graphKeys_aux : ∀ (l : List Task) (acc : List Nat) (k : Nat),
    (k ∈ l.foldl (fun ks t => if t.id ∈ ks then ks else ks ++ [t.id]) acc) ↔
      (k ∈ acc ∨ ∃ t ∈ l, t.id = k) := by
  intro l
  induction l with
  | nil => simp
  | cons a l ih =>
    intro acc k
    rw [List.foldl_cons, ih]
    have hstep : (k ∈ if a.id ∈ acc then acc else acc ++ [a.id]) ↔ (k ∈ acc ∨ a.id = k) := by
      by_cases h : a.id ∈ acc
      · rw [if_pos h]
        constructor
        · exact Or.inl
        · rintro (hk | rfl)
          · exact hk
          · exact h
      · rw [if_neg h]
        simp [List.mem_append, eq_comm]
    rw [hstep]
    simp [List.exists_mem_cons_iff (fun t => Task.id t = k), or_assoc]

/-- The graph keys are exactly the ids present in the collection. -/
theorem mem_graphKeys {tasks : List Task} {k : Nat} :
    k ∈ graphKeys tasks ↔ ∃ t ∈ tasks, t.id = k := by
  unfold graphKeys
  rw [mem_graphKeys_aux]
  simp

/-- Every id pushed into an adjacency list is the id of a task of the
collection. -/
theorem mem_dependentsOf {tasks : List Task} {k x : Nat}
    (h : x ∈ dependentsOf tasks k) : ∃ t ∈ tasks, t.id = x := by
  unfold dependentsOf at h
  obtain ⟨t, ht, hx⟩ := List.mem_flatMap.mp h
  obtain ⟨d, _, hdx⟩ := List.mem_map.mp hx
  exact ⟨t, ht, hdx⟩

/-- **C7**. Dangling references are tolerated, never errors: a
dependency identity that names no task appears in the dependency graph
neither as a key nor inside any adjacency list; every conflict finding
comes from a dependency identity that resolves to a task with a planned
end (unresolvable identities are skipped); and a resolvable, violated
dependency is flagged regardless of any dangling identities elsewhere
in the collection. -/
theorem dangling_references_tolerated :
    (∀ (tasks : List Task) (d : Nat), d ∉ tasks.map Task.id →
      ∀ entry ∈ buildDependencyGraph tasks, entry.1 ≠ d ∧ d ∉ entry.2) ∧
    (∀ (tasks : List Task) (c : Conflict), c ∈ detectScheduleConflicts tasks →
      ∃ i ∈ c.task.depends_on, findTask tasks i = some c.dependency ∧
        c.dependency.planned_end_date.isSome = true) ∧
    (∀ (tasks : List Task) (t dep : Task) (s e : Int) (i : Nat),
      t ∈ tasks → t.planned_start_date = some s → i ∈ t.depends_on →
      findTask tasks i = some dep → dep.planned_end_date = some e → s < e →
      ∃ c ∈ detectScheduleConflicts tasks, c.task = t ∧ c.dependency = dep) := by
  refine ⟨?_, ?_, ?_⟩
  · intro tasks d hd entry hentry
    obtain ⟨k, hk, hek⟩ := List.mem_map.mp hentry
    constructor
    · intro h1
      obtain ⟨t, ht, hid⟩ := mem_graphKeys.mp hk
      rw [← hek] at h1
      refine hd (List.mem_map.mpr ⟨t, ht, ?_⟩)
      rw [hid]
      exact h1
    · intro h2
      rw [← hek] at h2
      obtain ⟨t, ht, hid⟩ := mem_dependentsOf h2
      exact hd (List.mem_map.mpr ⟨t, ht, hid⟩)
  · intro tasks c hc
    obtain ⟨t2, ht2, hcf⟩ := mem_detectScheduleConflicts.mp hc
    obtain ⟨hctask, s, e, i, hs, hi, hf, he, hlt, hdays⟩ := conflictsOf_elim hcf
    refine ⟨i, ?_, hf, ?_⟩
    · rw [hctask]; exact hi
    · rw [he]; rfl
  · intro tasks t dep s e i ht hs hi hf he hlt
    exact ⟨⟨t, dep, daysCeilDiff e s⟩,
      mem_detectScheduleConflicts.mpr ⟨t, ht, conflictsOf_intro hs hi hf he hlt⟩,
      rfl, rfl⟩

/-- **C7** witness: the task whose dependency list holds the dangling
id 99 alongside the resolvable id 1 is still analyzed and flagged. -/
theorem dangling_references_tolerated_witness :
    ∃ c ∈ detectScheduleConflicts [cfDep, cfDangling],
      c.task = cfDangling ∧ c.dependency = cfDep :=
  dangling_references_tolerated.2.2 [cfDep, cfDangling] cfDangling cfDep 10 15 1
    (by decide) rfl (by decide) (by decide) rfl (by norm_num)

/-! ## Report counting lemmas -/

/-- Every task falls in exactly one of the four closed-status buckets
or in the outside bucket. -/
theorem length_eq_status_counts (tasks : List Task) :
    tasks.length =
      tasks.countP (fun t => t.status == "completed") +
      tasks.countP (fun t => t.status == "in_progress") +
      tasks.countP (fun t => t.status == "planned") +
      tasks.countP (fun t => t.status == "delayed") +
      tasks.countP (fun t => !closedStatus t.status) := by
  induction tasks with
  | nil => rfl
  | cons a l ih =>
    simp only [List.countP_cons, List.length_cons, ih]
    by_cases h1 : a.status = "completed" <;> by_cases h2 : a.status = "in_progress" <;>
      by_cases h3 : a.status = "planned" <;> by_cases h4 : a.status = "delayed" <;>
      simp [closedStatus, h1, h2, h3, h4] <;> omega

/-- **C8**. In the Coordination Report, total_tasks equals the sum of
the four per-status counts plus the number of tasks whose status lies
outside the closed set; hence total_tasks is at least the sum, with
equality when every status belongs to the closed set. -/
theorem report_total_counts :
    ∀ (pname today : String) (tasks : List Task) (r : Report),
      generateCoordinationReport (.ok (some pname, tasks)) today = some r →
      (r.totalTasks = r.completedTasks + r.inProgressTasks + r.plannedTasks + r.delayedTasks +
        tasks.countP (fun t => !closedStatus t.status)) ∧
      r.completedTasks + r.inProgressTasks + r.plannedTasks + r.delayedTasks ≤ r.totalTasks ∧
      ((∀ t ∈ tasks, t.status = "completed" ∨ t.status = "in_progress" ∨
          t.status = "planned" ∨ t.status = "delayed") →
        r.totalTasks = r.completedTasks + r.inProgressTasks + r.plannedTasks + r.delayedTasks) := by
  intro pname today tasks r hr
  obtain rfl := Option.some.inj hr
  simp only [makeReport]
  have hlen := length_eq_status_counts tasks
  refine ⟨hlen, by omega, ?_⟩
  intro hcl
  have houtside : tasks.countP (fun t => !closedStatus t.status) = 0 := by
    rw [List.countP_eq_zero]
    intro t ht
    rcases hcl t ht with h | h | h | h <;> simp [closedStatus, h]
  rw [houtside] at hlen
  omega

/-- **C8** witness: a report over one completed task and one task with
an out-of-set status satisfies the counting identity. -/
theorem report_total_counts_witness :
    (makeReport "p" "d" [stDone, stOdd]).totalTasks =
      (makeReport "p" "d" [stDone, stOdd]).completedTasks +
      (makeReport "p" "d" [stDone, stOdd]).inProgressTasks +
      (makeReport "p" "d" [stDone, stOdd]).plannedTasks +
      (makeReport "p" "d" [stDone, stOdd]).delayedTasks +
      [stDone, stOdd].countP (fun t => !closedStatus t.status) :=
  (report_total_counts "p" "d" [stDone, stOdd] (makeReport "p" "d" [stDone, stOdd]) rfl).1

/-! ## Trade overlap lemmas -/

/-- Characterization of the fold that collects trade keys. -/
theorem mem_tradeKeys_aux : ∀ (l : List Task) (acc : List Nat) (k : Nat),
    (k ∈ l.foldl (fun ks t =>
      match t.trade_id, t.planned_start_date, t.planned_end_date with
      | some tr, some _, some _ => if tr ∈ ks then ks else ks ++ [tr]
      | _, _, _ => ks) acc) ↔
    (k ∈ acc ∨ ∃ t ∈ l, t.trade_id = some k ∧
      t.planned_start_date.isSome = true ∧ t.planned_end_date.isSome = true) := by
  intro l
  induction l with
  | nil => simp
  | cons a l ih =>
    intro acc k
    rw [List.foldl_cons, ih]
    have hstep : (k ∈ (match a.trade_id, a.planned_start_date, a.planned_end_date with
        | some tr, some _, some _ => if tr ∈ acc then acc else acc ++ [tr]
        | _, _, _ => acc)) ↔
        (k ∈ acc ∨ (a.trade_id = some k ∧
          a.planned_start_date.isSome = true ∧ a.planned_end_date.isSome = true)) := by
      rcases h1 : a.trade_id with _ | tr
      · simp [h1]
      rcases h2 : a.planned_start_date with _ | x
      · simp [h1, h2]
      rcases h3 : a.planned_end_date with _ | y
      · simp [h1, h2, h3]
      simp only [h1, h2, h3, Option.isSome_some, and_true, true_and]
      by_cases h : tr ∈ acc
      · rw [if_pos h]
        constructor
        · exact Or.inl
        · rintro (hk | hk)
          · exact hk
          · obtain rfl := Option.some.inj hk
            exact h
      · rw [if_neg h]
        simp [List.mem_append, eq_comm]
    rw [hstep]
    simp only [List.exists_mem_cons_iff]
    tauto

/-- The trade keys are exactly the trades of eligible tasks. -/
theorem mem_tradeKeys {tasks : List Task} {k : Nat} :
    k ∈ tradeKeys tasks ↔ ∃ t ∈ tasks, t.trade_id = some k ∧
      t.planned_start_date.isSome = true ∧ t.planned_end_date.isSome = true := by
  unfold tradeKeys
  rw [mem_tradeKeys_aux]
  simp

/-- Bucket membership is eligibility with the right trade. -/
theorem mem_tradeGroup {tasks : List Task} {tr : Nat} {t : Task} :
    t ∈ tradeGroup tasks tr ↔ t ∈ tasks ∧ t.trade_id = some tr ∧
      t.planned_start_date.isSome = true ∧ t.planned_end_date.isSome = true := by
  unfold tradeGroup
  rw [List.mem_filter]
  simp [Bool.and_eq_true, and_assoc]

/-- Unfolding equation of the pair enumeration. -/
theorem keyPairs_cons (k : Nat) (ks : List Nat) :
    keyPairs (k :: ks) = ks.map (fun j => (k, j)) ++ keyPairs ks := rfl

/-- Any two distinct members of the key list appear as a pair, in one
of the two orders. -/
theorem keyPairs_cover : ∀ (ks : List Nat) (a b : Nat), a ∈ ks → b ∈ ks → a ≠ b →
    ((a, b) ∈ keyPairs ks ∨ (b, a) ∈ keyPairs ks) := by
  intro ks
  induction ks with
  | nil => intro a b ha _ _; simp at ha
  | cons k rest ih =>
    intro a b ha hb hne
    rw [keyPairs_cons]
    rcases List.mem_cons.mp ha with rfl | ha2
    · have hb2 : b ∈ rest := by
        rcases List.mem_cons.mp hb with h | h
        · exact absurd h.symm hne
        · exact h
      exact Or.inl (List.mem_append.mpr (Or.inl (List.mem_map.mpr ⟨b, hb2, rfl⟩)))
    · rcases List.mem_cons.mp hb with rfl | hb2
      · exact Or.inr (List.mem_append.mpr (Or.inl (List.mem_map.mpr ⟨a, ha2, rfl⟩)))
      · rcases ih a b ha2 hb2 hne with h | h
        · exact Or.inl (List.mem_append.mpr (Or.inr h))
        · exact Or.inr (List.mem_append.mpr (Or.inr h))

/-- Every overlap record produced by the innermost comparison carries
its generating data. -/
theorem overlapOf_elim {t1 t2 : Task} {o : Overlap} (h : overlapOf t1 t2 = some o) :
    o.task1 = t1 ∧ o.task2 = t2 ∧ ∃ s1 e1 s2 e2,
      t1.planned_start_date = some s1 ∧ t1.planned_end_date = some e1 ∧
      t2.planned_start_date = some s2 ∧ t2.planned_end_date = some e2 ∧
      s1 ≤ e2 ∧ e1 ≥ s2 ∧ o.startOverlap = max s1 s2 ∧ o.endOverlap = min e1 e2 := by
  unfold overlapOf at h
  rcases h1 : t1.planned_start_date with _ | s1
  · simp only [h1] at h
    exact Option.noConfusion h
  rcases h2 : t1.planned_end_date with _ | e1
  · simp only [h1, h2] at h
    exact Option.noConfusion h
  rcases h3 : t2.planned_start_date with _ | s2
  · simp only [h1, h2, h3] at h
    exact Option.noConfusion h
  rcases h4 : t2.planned_end_date with _ | e2
  · simp only [h1, h2, h3, h4] at h
    exact Option.noConfusion h
  simp only [h1, h2, h3, h4] at h
  by_cases hc : s1 ≤ e2 ∧ e1 ≥ s2
  · rw [if_pos hc] at h
    obtain rfl := Option.some.inj h
    refine ⟨rfl, rfl, s1, e1, s2, e2, rfl, rfl, rfl, rfl, hc.1, hc.2, ?_, ?_⟩
    · show (if s1 > s2 then s1 else s2) = max s1 s2
      split_ifs with hgt <;> omega
    · show (if e1 < e2 then e1 else e2) = min e1 e2
      split_ifs with hlt <;> omega
  · rw [if_neg hc] at h
    exact Option.noConfusion h

/-- The innermost comparison records an overlap when the ranges meet. -/
theorem overlapOf_intro {t1 t2 : Task} {s1 e1 s2 e2 : Int}
    (h1 : t1.planned_start_date = some s1) (h2 : t1.planned_end_date = some e1)
    (h3 : t2.planned_start_date = some s2) (h4 : t2.planned_end_date = some e2)
    (hc : s1 ≤ e2 ∧ e1 ≥ s2) :
    overlapOf t1 t2 = some { task1 := t1, task2 := t2,
                             startOverlap := if s1 > s2 then s1 else s2,
                             endOverlap := if e1 < e2 then e1 else e2 } := by
  unfold overlapOf
  simp only [h1, h2, h3, h4]
  rw [if_pos hc]

/-- Membership in a bucket comparison. -/
theorem mem_compareGroups {g1 g2 : List Task} {o : Overlap} :
    o ∈ compareGroups g1 g2 ↔ ∃ x ∈ g1, ∃ y ∈ g2, overlapOf x y = some o := by
  unfold compareGroups
  simp [List.mem_flatMap, List.mem_filterMap]

/-- Membership in the overlap findings. -/
theorem mem_detectTradeOverlaps {tasks : List Task} {o : Overlap} :
    o ∈ detectTradeOverlaps tasks ↔ ∃ p ∈ keyPairs (tradeKeys tasks),
      o ∈ compareGroups (tradeGroup tasks p.1) (tradeGroup tasks p.2) := by
  unfold detectTradeOverlaps detectTradeOverlapsFull
  exact List.mem_flatMap

/-- **C1**. For every pair of tasks of two distinct trades, each with a
fully specified planned range, the Trade Overlap Detector reports an
overlap finding (in one of the two orientations) if and only if
s1 <= e2 and e1 >= s2 (inclusive-date semantics); every reported
finding involves only tasks with a trade and a fully specified planned
range; and the ranges Jan 1 to Jan 4 and Jan 5 to Jan 10 produce no
finding. -/
theorem trade_overlap_iff :
    (∀ (tasks : List Task) (t1 t2 : Task) (k1 k2 : Nat) (s1 e1 s2 e2 : Int),
      t1 ∈ tasks → t2 ∈ tasks → t1.trade_id = some k1 → t2.trade_id = some k2 →
      k1 ≠ k2 →
      t1.planned_start_date = some s1 → t1.planned_end_date = some e1 →
      t2.planned_start_date = some s2 → t2.planned_end_date = some e2 →
      ((∃ o ∈ detectTradeOverlaps tasks,
          (o.task1 = t1 ∧ o.task2 = t2) ∨ (o.task1 = t2 ∧ o.task2 = t1)) ↔
        (s1 ≤ e2 ∧ e1 ≥ s2))) ∧
    (∀ (tasks : List Task) (o : Overlap), o ∈ detectTradeOverlaps tasks →
      o.task1.trade_id.isSome = true ∧ o.task1.planned_start_date.isSome = true ∧
      o.task1.planned_end_date.isSome = true ∧ o.task2.trade_id.isSome = true ∧
      o.task2.planned_start_date.isSome = true ∧ o.task2.planned_end_date.isSome = true) ∧
    detectTradeOverlaps [ovA, ovB] = [] := by
  refine ⟨?_, ?_, by decide⟩
  · intro tasks t1 t2 k1 k2 s1 e1 s2 e2 ht1 ht2 htr1 htr2 hne hs1 he1 hs2 he2
    constructor
    · rintro ⟨o, ho, hor⟩
      obtain ⟨p, _, hcg⟩ := mem_detectTradeOverlaps.mp ho
      obtain ⟨x, _, y, _, hov⟩ := mem_compareGroups.mp hcg
      obtain ⟨hox, hoy, sx, ex, sy, ey, hxs, hxe, hys, hye, hc1, hc2, _, _⟩ :=
        overlapOf_elim hov
      rcases hor with ⟨ha1, ha2⟩ | ⟨ha1, ha2⟩
      · rw [ha1] at hox
        rw [ha2] at hoy
        rw [← hox] at hxs hxe
        rw [← hoy] at hys hye
        rw [hs1] at hxs
        rw [he1] at hxe
        rw [hs2] at hys
        rw [he2] at hye
        obtain rfl := Option.some.inj hxs
        obtain rfl := Option.some.inj hxe
        obtain rfl := Option.some.inj hys
        obtain rfl := Option.some.inj hye
        exact ⟨hc1, hc2⟩
      · rw [ha1] at hox
        rw [ha2] at hoy
        rw [← hox] at hxs hxe
        rw [← hoy] at hys hye
        rw [hs2] at hxs
        rw [he2] at hxe
        rw [hs1] at hys
        rw [he1] at hye
        obtain rfl := Option.some.inj hxs
        obtain rfl := Option.some.inj hxe
        obtain rfl := Option.some.inj hys
        obtain rfl := Option.some.inj hye
        constructor <;> omega
    · intro hc
      have hk1 : k1 ∈ tradeKeys tasks :=
        mem_tradeKeys.mpr ⟨t1, ht1, htr1, by rw [hs1]; rfl, by rw [he1]; rfl⟩
      have hk2 : k2 ∈ tradeKeys tasks :=
        mem_tradeKeys.mpr ⟨t2, ht2, htr2, by rw [hs2]; rfl, by rw [he2]; rfl⟩
      have hg1 : t1 ∈ tradeGroup tasks k1 :=
        mem_tradeGroup.mpr ⟨ht1, htr1, by rw [hs1]; rfl, by rw [he1]; rfl⟩
      have hg2 : t2 ∈ tradeGroup tasks k2 :=
        mem_tradeGroup.mpr ⟨ht2, htr2, by rw [hs2]; rfl, by rw [he2]; rfl⟩
      rcases keyPairs_cover (tradeKeys tasks) k1 k2 hk1 hk2 hne with hp | hp
      · refine ⟨_, mem_detectTradeOverlaps.mpr ⟨(k1, k2), hp,
          mem_compareGroups.mpr ⟨t1, hg1, t2, hg2, overlapOf_intro hs1 he1 hs2 he2 hc⟩⟩,
          Or.inl ⟨rfl, rfl⟩⟩
      · refine ⟨_, mem_detectTradeOverlaps.mpr ⟨(k2, k1), hp,
          mem_compareGroups.mpr ⟨t2, hg2, t1, hg1,
            overlapOf_intro hs2 he2 hs1 he1 ⟨by omega, by omega⟩⟩⟩,
          Or.inr ⟨rfl, rfl⟩⟩
  · intro tasks o ho
    obtain ⟨p, _, hcg⟩ := mem_detectTradeOverlaps.mp ho
    obtain ⟨x, hx, y, hy, hov⟩ := mem_compareGroups.mp hcg
    obtain ⟨hox, hoy, sx, ex, sy, ey, hxs, hxe, hys, hye, _, _, _, _⟩ := overlapOf_elim hov
    obtain ⟨_, hxtr, hxs2, hxe2⟩ := mem_tradeGroup.mp hx
    obtain ⟨_, hytr, hys2, hye2⟩ := mem_tradeGroup.mp hy
    rw [hox, hoy]
    exact ⟨by rw [hxtr]; rfl, hxs2, hxe2, by rw [hytr]; rfl, hys2, hye2⟩

/-- **C1** witness: trade-1 Jan 1 to Jan 10 and trade-2 Jan 8 to Jan 20
are reported as overlapping. -/
theorem trade_overlap_iff_witness :
    ∃ o ∈ detectTradeOverlaps [ovE, ovF],
      (o.task1 = ovE ∧ o.task2 = ovF) ∨ (o.task1 = ovF ∧ o.task2 = ovE) :=
  (trade_overlap_iff.1 [ovE, ovF] ovE ovF 1 2 1 10 8 20 (by decide) (by decide)
    rfl rfl (by decide) rfl rfl rfl rfl).mpr (by norm_num)

/-- **C2** (amended). For every overlap finding, the reported window is
the pair max(s1,s2), min(e1,e2) and its day count is
Math.ceil((end - start) / 1 day), which on calendar dates evaluates to
the difference of the window bounds; in particular two tasks of
distinct trades with ranges Jan 1 to Jan 5 and Jan 5 to Jan 10 are
reported as overlapping with overlap_days = 0 (the single shared
boundary day gives a window of zero span, and the ceiling of 0 is 0,
not 1). -/
theorem overlap_window_and_days :
    (∀ (tasks : List Task) (o : Overlap), o ∈ detectTradeOverlaps tasks →
      ∃ s1 e1 s2 e2,
        o.task1.planned_start_date = some s1 ∧ o.task1.planned_end_date = some e1 ∧
        o.task2.planned_start_date = some s2 ∧ o.task2.planned_end_date = some e2 ∧
        o.startOverlap = max s1 s2 ∧ o.endOverlap = min e1 e2 ∧
        o.daysOverlap = min e1 e2 - max s1 s2) ∧
    (detectTradeOverlaps [ovC, ovB]).map Overlap.daysOverlap = [0] := by
  refine ⟨?_, by decide⟩
  intro tasks o ho
  obtain ⟨p, _, hcg⟩ := mem_detectTradeOverlaps.mp ho
  obtain ⟨x, _, y, _, hov⟩ := mem_compareGroups.mp hcg
  obtain ⟨hox, hoy, sx, ex, sy, ey, hxs, hxe, hys, hye, _, _, hstart, hend⟩ :=
    overlapOf_elim hov
  refine ⟨sx, ex, sy, ey, ?_, ?_, ?_, ?_, hstart, hend, ?_⟩
  · rw [hox]; exact hxs
  · rw [hox]; exact hxe
  · rw [hoy]; exact hys
  · rw [hoy]; exact hye
  · rw [daysOverlap_eq, hstart, hend]

/-- **C2** counterexample: the boundary ranges Jan 1 to Jan 5 and Jan 5
to Jan 10 are reported as one overlapping pair, but with
overlap_days = 0, not 1 as the claim states. -/
theorem overlap_boundary_not_one_day :
    detectTradeOverlaps [ovC, ovB] = [boundaryOverlap] ∧
    boundaryOverlap.daysOverlap = 0 ∧ ¬ boundaryOverlap.daysOverlap = 1 :=
  ⟨by decide, by decide, by decide⟩

/-- **C2** witness: the window characterization applied to the boundary
finding. -/
theorem overlap_window_and_days_witness :
    ∃ s1 e1 s2 e2,
      boundaryOverlap.task1.planned_start_date = some s1 ∧
      boundaryOverlap.task1.planned_end_date = some e1 ∧
      boundaryOverlap.task2.planned_start_date = some s2 ∧
      boundaryOverlap.task2.planned_end_date = some e2 ∧
      boundaryOverlap.startOverlap = max s1 s2 ∧
      boundaryOverlap.endOverlap = min e1 e2 ∧
      boundaryOverlap.daysOverlap = min e1 e2 - max s1 s2 :=
  overlap_window_and_days.1 [ovC, ovB] boundaryOverlap (by decide)

/-! ## Missing dependency lemmas -/

/-- Membership in the candidate list of one subject. -/
theorem mem_candidatesFor {prevs : List Task} {cur : Task} {s : Int} {p : Task} {db : Int} :
    (⟨p, db⟩ : PotentialDep) ∈ candidatesFor prevs cur s ↔
      p ∈ prevs ∧ ∃ pe, p.planned_end_date = some pe ∧ db = s - pe ∧
        0 ≤ db ∧ db ≤ 5 ∧ p.id ∉ cur.depends_on := by
  unfold candidatesFor
  rw [List.mem_filterMap]
  constructor
  · rintro ⟨q, hqm, hf⟩
    rcases he : q.planned_end_date with _ | pe
    · simp only [he] at hf
      exact Option.noConfusion hf
    simp only [he] at hf
    have hf2 : (if 0 ≤ daysCeilDiff s pe ∧ daysCeilDiff s pe ≤ 5 ∧ q.id ∉ cur.depends_on
        then some (⟨q, daysCeilDiff s pe⟩ : PotentialDep) else none) =
        some (⟨p, db⟩ : PotentialDep) := hf
    rw [daysCeilDiff_eq] at hf2
    by_cases hcond : 0 ≤ s - pe ∧ s - pe ≤ 5 ∧ q.id ∉ cur.depends_on
    · rw [if_pos hcond] at hf2
      injection hf2 with h12
      injection h12 with hq hdb
      subst hq
      subst hdb
      exact ⟨hqm, pe, he, rfl, hcond.1, hcond.2.1, hcond.2.2⟩
    · rw [if_neg hcond] at hf2
      exact Option.noConfusion hf2
  · rintro ⟨hp, pe, he, rfl, h0, h5, hnd⟩
    refine ⟨p, hp, ?_⟩
    have hstep : (if 0 ≤ daysCeilDiff s pe ∧ daysCeilDiff s pe ≤ 5 ∧ p.id ∉ cur.depends_on
        then some (⟨p, daysCeilDiff s pe⟩ : PotentialDep) else none) =
        some (⟨p, s - pe⟩ : PotentialDep) := by
      rw [daysCeilDiff_eq]
      rw [if_pos ⟨h0, h5, hnd⟩]
    simp only [he]
    exact hstep

/-- Unfolding equation of the outer scan at a subject without a planned
start. -/
theorem missingDepScan_cons_none {acc : List Task} {cur : Task} {rest : List Task}
    (h : cur.planned_start_date = none) :
    missingDepScan acc (cur :: rest) = missingDepScan (acc ++ [cur]) rest := by
  simp only [missingDepScan, h]

/-- Unfolding equation of the outer scan at a subject with a planned
start. -/
theorem missingDepScan_cons_some {acc : List Task} {cur : Task} {rest : List Task} {s : Int}
    (h : cur.planned_start_date = some s) :
    missingDepScan acc (cur :: rest) =
      (if candidatesFor acc cur s ≠ [] ∧ cur.depends_on = []
        then [⟨cur, candidatesFor acc cur s⟩] else []) ++
      missingDepScan (acc ++ [cur]) rest := by
  simp only [missingDepScan, h]

/-- The scan distributes over list append, shifting the visited
prefix. -/
theorem missingDepScan_append : ∀ (l1 l2 acc : List Task),
    missingDepScan acc (l1 ++ l2) =
      missingDepScan acc l1 ++ missingDepScan (acc ++ l1) l2 := by
  intro l1
  induction l1 with
  | nil => intro l2 acc; simp [missingDepScan]
  | cons cur rest ih =>
    intro l2 acc
    rw [List.cons_append]
    rcases h : cur.planned_start_date with _ | s
    · rw [missingDepScan_cons_none h, missingDepScan_cons_none h, ih]
      simp [List.append_assoc]
    · rw [missingDepScan_cons_some h, missingDepScan_cons_some h, ih]
      simp [List.append_assoc]

/-- Every finding of the scan comes from a subject with a planned
start, no declared dependencies, and a non-empty candidate list
computed over the tasks before it. -/
theorem missingDepScan_elim : ∀ (l acc : List Task) (issue : MissingDepIssue),
    issue ∈ missingDepScan acc l →
    issue.task.depends_on = [] ∧ issue.potentialDependencies ≠ [] ∧
    ∃ s pre post, issue.task.planned_start_date = some s ∧
      l = pre ++ issue.task :: post ∧
      issue.potentialDependencies = candidatesFor (acc ++ pre) issue.task s := by
  intro l
  induction l with
  | nil => intro acc issue h; simp [missingDepScan] at h
  | cons cur rest ih =>
    intro acc issue h
    rcases hcur : cur.planned_start_date with _ | s0
    · rw [missingDepScan_cons_none hcur] at h
      obtain ⟨hdep, hne, s, pre, post, hs, hsplit, hcands⟩ := ih (acc ++ [cur]) issue h
      refine ⟨hdep, hne, s, cur :: pre, post, hs, by rw [hsplit, List.cons_append], ?_⟩
      rw [hcands]
      congr 1
      simp
    · rw [missingDepScan_cons_some hcur] at h
      rcases List.mem_append.mp h with h1 | h2
      · by_cases hcond : candidatesFor acc cur s0 ≠ [] ∧ cur.depends_on = []
        · rw [if_pos hcond] at h1
          obtain rfl := List.mem_singleton.mp h1
          exact ⟨hcond.2, hcond.1, s0, [], rest, hcur, rfl, by simp⟩
        · rw [if_neg hcond] at h1
          exact absurd h1 (List.not_mem_nil issue)
      · obtain ⟨hdep, hne, s, pre, post, hs, hsplit, hcands⟩ := ih (acc ++ [cur]) issue h2
        refine ⟨hdep, hne, s, cur :: pre, post, hs, by rw [hsplit, List.cons_append], ?_⟩
        rw [hcands]
        congr 1
        simp

/-- A subject with a planned start, no dependencies and a non-empty
candidate list over the tasks sorted before it yields its finding. -/
theorem missingDepScan_intro {tasks pre post : List Task} {cur : Task} {s : Int}
    (hsplit : sortedTasks tasks = pre ++ cur :: post)
    (hs : cur.planned_start_date = some s) (hd : cur.depends_on = [])
    (hne : candidatesFor pre cur s ≠ []) :
    (⟨cur, candidatesFor pre cur s⟩ : MissingDepIssue) ∈ detectMissingDependencies tasks := by
  unfold detectMissingDependencies detectMissingDependenciesFull
  rw [hsplit, missingDepScan_append]
  refine List.mem_append.mpr (Or.inr ?_)
  simp only [List.nil_append]
  rw [missingDepScan_cons_some hs, if_pos ⟨hne, hd⟩]
  exact List.mem_append.mpr (Or.inl (List.mem_singleton.mpr rfl))

/-- Candidate predecessors always carry a planned start: they are drawn
from strictly earlier sort positions, and any task sorted before a
subject (which has a planned start) has one too. -/
theorem candidate_has_start {tasks : List Task} {issue : MissingDepIssue} {pd : PotentialDep}
    (hissue : issue ∈ detectMissingDependencies tasks)
    (hpd : pd ∈ issue.potentialDependencies) :
    pd.task.planned_start_date.isSome = true := by
  obtain ⟨_, _, s, pre, post, hs, hsplit, hcands⟩ :=
    missingDepScan_elim (sortedTasks tasks) [] issue hissue
  rcases hn : pd.task.planned_start_date with _ | v
  · exfalso
    obtain ⟨pt, pdb⟩ := pd
    rw [hcands] at hpd
    simp only [List.nil_append] at hpd
    have hptpre : pt ∈ pre := (mem_candidatesFor.mp hpd).1
    have hpw := sortedTasks_pairwise tasks
    rw [hsplit] at hpw
    obtain ⟨_, _, hcross⟩ := List.pairwise_append.mp hpw
    have hrel : sortRel pt issue.task := hcross pt hptpre issue.task (List.mem_cons_self _ _)
    have hnone := sortLe_none hn hrel
    rw [hs] at hnone
    exact Option.noConfusion hnone
  · rfl

/-- **C4**. For every task with a defined planned start and an empty
declared-dependency set, the Missing Dependency Inferrer includes an
earlier task (by chronological sort order) as a candidate predecessor
exactly when that predecessor has a defined planned end,
daysBetween = Math.ceil((task start - predecessor end) / 1 day) lies in
the window 0 <= daysBetween <= 5, and the predecessor is not already
declared as a dependency; a task yields a finding only if it has at
least one candidate, and a task with declared dependencies never yields
a finding. -/
theorem missing_dependency_characterization :
    (∀ (tasks : List Task) (issue : MissingDepIssue),
      issue ∈ detectMissingDependencies tasks →
      issue.task.depends_on = [] ∧ issue.potentialDependencies ≠ [] ∧
      ∃ s pre post, issue.task.planned_start_date = some s ∧
        sortedTasks tasks = pre ++ issue.task :: post ∧
        issue.potentialDependencies = candidatesFor pre issue.task s) ∧
    (∀ (prevs : List Task) (cur : Task) (s : Int) (p : Task) (db : Int),
      ((⟨p, db⟩ : PotentialDep) ∈ candidatesFor prevs cur s ↔
        p ∈ prevs ∧ ∃ pe, p.planned_end_date = some pe ∧ db = daysCeilDiff s pe ∧
          0 ≤ db ∧ db ≤ 5 ∧ p.id ∉ cur.depends_on)) ∧
    (∀ (tasks pre post : List Task) (cur : Task) (s : Int),
      sortedTasks tasks = pre ++ cur :: post →
      cur.planned_start_date = some s → cur.depends_on = [] →
      candidatesFor pre cur s ≠ [] →
      (⟨cur, candidatesFor pre cur s⟩ : MissingDepIssue) ∈ detectMissingDependencies tasks) := by
  refine ⟨?_, ?_, ?_⟩
  · intro tasks issue hissue
    obtain ⟨hdep, hne, s, pre, post, hs, hsplit, hcands⟩ :=
      missingDepScan_elim (sortedTasks tasks) [] issue hissue
    simp only [List.nil_append] at hcands
    exact ⟨hdep, hne, s, pre, post, hs, hsplit, hcands⟩
  · intro prevs cur s p db
    simp only [daysCeilDiff_eq]
    exact mem_candidatesFor
  · intro tasks pre post cur s hsplit hs hd hne
    exact missingDepScan_intro hsplit hs hd hne

/-- **C4** witness: the subject starting Jan 10 with no dependencies
yields its finding; the predecessor ending Jan 6 (4 days prior) is a
candidate, the one ending Jan 3 (7 days prior) is not. -/
theorem missing_dependency_characterization_witness :
    ((⟨mdSubj, candidatesFor [mdPred, mdFar] mdSubj 10⟩ : MissingDepIssue) ∈
      detectMissingDependencies [mdPred, mdFar, mdSubj]) ∧
    ((⟨mdPred, (4 : Int)⟩ : PotentialDep) ∈ candidatesFor [mdPred, mdFar] mdSubj 10) ∧
    ¬ ((⟨mdFar, (7 : Int)⟩ : PotentialDep) ∈ candidatesFor [mdPred, mdFar] mdSubj 10) := by
  refine ⟨?_, ?_, ?_⟩
  · exact missing_dependency_characterization.2.2 [mdPred, mdFar, mdSubj] [mdPred, mdFar]
      [] mdSubj 10 (by decide) rfl rfl (by decide)
  · exact (missing_dependency_characterization.2.1 [mdPred, mdFar] mdSubj 10 mdPred 4).mpr
      ⟨by decide, 6, rfl, by decide, by decide, by decide, by decide⟩
  · intro h
    obtain ⟨_, pe, hpe, hdb, h0, h5, _⟩ :=
      (missing_dependency_characterization.2.1 [mdPred, mdFar] mdSubj 10 mdFar 7).mp h
    exact absurd h5 (by norm_num)

/-- **C5** counterexample: there is no input at all on which a task
without a planned start appears among the candidate predecessors of a
finding — the claimed existential is false, because such tasks sort
last while candidates are drawn only from positions before the subject. -/
theorem no_start_never_candidate_cex :
    ¬ ∃ (tasks : List Task) (issue : MissingDepIssue) (pd : PotentialDep),
      issue ∈ detectMissingDependencies tasks ∧
      pd ∈ issue.potentialDependencies ∧ pd.task.planned_start_date = none := by
  rintro ⟨tasks, issue, pd, h1, h2, h3⟩
  have hsome := candidate_has_start h1 h2
  rw [h3] at hsome
  exact Bool.noConfusion hsome

/-- **C5** (amended). In the chronological sort of the Missing
Dependency Inferrer, tasks with no planned start sort last (every task
after one of them also has no planned start) and are skipped as
subjects; and such a task never serves as a candidate predecessor in
any finding, since candidates are drawn only from sort positions before
the subject, all of which carry a planned start. -/
theorem no_start_sort_last :
    (∀ (tasks pre post : List Task) (a : Task),
      sortedTasks tasks = pre ++ a :: post → a.planned_start_date = none →
      ∀ b ∈ post, b.planned_start_date = none) ∧
    (∀ (tasks : List Task) (issue : MissingDepIssue),
      issue ∈ detectMissingDependencies tasks →
      issue.task.planned_start_date.isSome = true) ∧
    (∀ (tasks : List Task) (issue : MissingDepIssue) (pd : PotentialDep),
      issue ∈ detectMissingDependencies tasks → pd ∈ issue.potentialDependencies →
      pd.task.planned_start_date.isSome = true) := by
  refine ⟨?_, ?_, ?_⟩
  · intro tasks pre post a hsplit hnone b hb
    have hpw := sortedTasks_pairwise tasks
    rw [hsplit] at hpw
    obtain ⟨_, hpost, _⟩ := List.pairwise_append.mp hpw
    obtain ⟨hrelpost, _⟩ := List.pairwise_cons.mp hpost
    exact sortLe_none hnone (hrelpost b hb)
  · intro tasks issue hissue
    obtain ⟨_, _, s, pre, post, hs, _, _⟩ :=
      missingDepScan_elim (sortedTasks tasks) [] issue hissue
    rw [hs]
    rfl
  · intro tasks issue pd h1 h2
    exact candidate_has_start h1 h2

/-- **C5** witness: in the concrete finding for the Jan 10 subject, the
Jan 6 candidate predecessor indeed carries a planned start. -/
theorem no_start_sort_last_witness :
    (⟨mdPred, (4 : Int)⟩ : PotentialDep).task.planned_start_date.isSome = true :=
  no_start_sort_last.2.2 [mdPred, mdFar, mdSubj]
    ⟨mdSubj, candidatesFor [mdPred, mdFar] mdSubj 10⟩ ⟨mdPred, 4⟩ (by decide) (by decide)

end Coord
